import Mathlib

/-!
# Verification of the cluster-coordination layer and pawn bit-field helpers

Shallow embedding of two source files:

* `src/src/pawns.h` — the `Pawns::get_bits` / `Pawns::set_bits` bit-field
  accessors, modelled over `Nat` with explicit reduction modulo `2 ^ W`
  wherever the C++ unsigned type `T` of bit width `W` wraps.
* `src/unnamed/part_000` (`cluster.h`) — the `Cluster` namespace: the
  `TTSendBuffer` gossip buffer, the single-process stubs for
  `size` / `rank` / `is_root` / `save` / `getline` / `signals_poll`, and the
  `MoveInfo` aggregation record.

Parts of the repository that the claims depend on but that are not present
under `src/` (the distributed implementations in `cluster.cpp`, the
`TTEntry` payload of `tt.h`, and the C++ standard-library routines
`std::getline`, `std::pop_heap`, `std::push_heap`) are modelled from the
specification or from the standard library's documented contract; each such
definition carries a doc comment saying exactly what is modelled.
-/

namespace Pawns

/-- `x << n` computed in an unsigned integer type of bit width `W`:
the mathematical shift reduced modulo `2 ^ W`. -/
def shl (W x n : Nat) : Nat := (x <<< n) % 2 ^ W

/-- `x - 1` computed in an unsigned integer type of bit width `W`
(wrap-around subtraction). -/
def subOne (W x : Nat) : Nat := (x + (2 ^ W - 1)) % 2 ^ W

/-- `Pawns::get_bits` (src/src/pawns.h, lines 30-34):
`(w >> pos) & ((T(1) << len) - 1)` over an unsigned type `T` of width `W`. -/
def get_bits (W w pos len : Nat) : Nat :=
  (w >>> pos) &&& subOne W (shl W 1 len)

/-- `Pawns::set_bits` (src/src/pawns.h, lines 36-40):
`w ^= ((val << pos) ^ w) & (((T(1) << len) - 1) << pos)` over an unsigned
type `T` of width `W`; the function returns the new value of `w`. -/
def set_bits (W w pos len val : Nat) : Nat :=
  w ^^^ ((shl W val pos ^^^ w) &&& shl W (subOne W (shl W 1 len)) pos)

/-- For `len ≤ W` the field mask `(T(1) << len) - 1` equals `2 ^ len - 1`
(also in the wrap-around case `len = W`). -/
theorem subOne_shl_one (W len : Nat) (h : len ≤ W) :
    subOne W (shl W 1 len) = 2 ^ len - 1 := by
  have hposW : 0 < 2 ^ W := Nat.pos_pow_of_pos W (by norm_num)
  have hposl : 0 < 2 ^ len := Nat.pos_pow_of_pos len (by norm_num)
  unfold shl subOne
  rcases lt_or_eq_of_le h with hlt | heq
  · have h1 : (1 <<< len) = 2 ^ len := by
      rw [Nat.shiftLeft_eq, one_mul]
    have h2 : 2 ^ len < 2 ^ W := Nat.pow_lt_pow_right (by norm_num) hlt
    rw [h1, Nat.mod_eq_of_lt h2]
    have h3 : 2 ^ len + (2 ^ W - 1) = 2 ^ W + (2 ^ len - 1) := by omega
    rw [h3, Nat.add_mod_left, Nat.mod_eq_of_lt (by omega)]
  · subst heq
    have h1 : (1 <<< len) = 2 ^ len := by
      rw [Nat.shiftLeft_eq, one_mul]
    rw [h1, Nat.mod_self, Nat.zero_add, Nat.mod_eq_of_lt (by omega)]

/-- C8: writing a bit field and reading it back yields the written value.
For every word `w < 2 ^ W`, field position and length with `pos + len ≤ W`,
and value `val < 2 ^ len`,
`get_bits (set_bits w pos len val) pos len = val`. -/
theorem get_bits_set_bits (W w pos len val : Nat) (hW : w < 2 ^ W)
    (hpl : pos + len ≤ W) (hval : val < 2 ^ len) :
    get_bits W (set_bits W w pos len val) pos len = val := by
  have hlen : len ≤ W := by omega
  apply Nat.eq_of_testBit_eq
  intro j
  rcases lt_or_le j len with hj | hj
  · have hjW : pos + j < W := by omega
    unfold get_bits set_bits
    rw [subOne_shl_one W len hlen]
    unfold shl
    rw [Nat.testBit_land, Nat.testBit_shiftRight, Nat.testBit_two_pow_sub_one,
      Nat.testBit_xor, Nat.testBit_land, Nat.testBit_xor,
      Nat.testBit_mod_two_pow, Nat.testBit_mod_two_pow,
      Nat.testBit_shiftLeft, Nat.testBit_shiftLeft]
    have e4 : pos + j - pos = j := by omega
    have d1 : decide (j < len) = true := by simp [hj]
    have d2 : decide (pos + j < W) = true := by simp [hjW]
    have d3 : decide (pos + j ≥ pos) = true := by simp
    rw [e4, d1, d2, d3]
    simp only [Bool.true_and, Bool.and_true]
    cases hw : w.testBit (pos + j) <;> cases hv : val.testBit j <;> simp [hj]
  · have hvj : val.testBit j = false :=
      Nat.testBit_eq_false_of_lt
        (lt_of_lt_of_le hval (Nat.pow_le_pow_right (by norm_num) hj))
    unfold get_bits
    rw [subOne_shl_one W len hlen, Nat.testBit_land,
      Nat.testBit_two_pow_sub_one, hvj]
    have d : decide (j < len) = false := by simp [Nat.not_lt.mpr hj]
    rw [d]
    simp

/-- Witness for C8 at a concrete input: `W = 64`, `w = 0x123456789ABCDEF0`,
`pos = 11`, `len = 11`, `val = 1234`. -/
theorem get_bits_set_bits_witness :
    0x123456789ABCDEF0 < 2 ^ 64 ∧ 11 + 11 ≤ 64 ∧ 1234 < 2 ^ 11 ∧
      get_bits 64 (set_bits 64 0x123456789ABCDEF0 11 11 1234) 11 11 = 1234 :=
  ⟨by norm_num, by norm_num, by norm_num,
    get_bits_set_bits 64 0x123456789ABCDEF0 11 11 1234 (by norm_num)
      (by norm_num) (by norm_num)⟩

/-- C9: `set_bits` modifies only the field `[pos, pos + len)`: every bit
index `i` within the word width but outside the field is unchanged, for
every `val`. -/
theorem set_bits_only_field (W w pos len val i : Nat) (hiW : i < W)
    (hout : i < pos ∨ pos + len ≤ i) :
    (set_bits W w pos len val).testBit i = w.testBit i := by
  have hM : (shl W (subOne W (shl W 1 len)) pos).testBit i = false := by
    conv_lhs => rw [shl]
    rw [Nat.testBit_mod_two_pow, Nat.testBit_shiftLeft]
    rcases hout with h | h
    · have : ¬ (i ≥ pos) := by omega
      simp [this]
    · rcases le_or_lt len W with hlenW | hlenW
      · rw [subOne_shl_one W len hlenW, Nat.testBit_two_pow_sub_one]
        have : ¬ (i - pos < len) := by omega
        simp [this]
      · exfalso; omega
  unfold set_bits
  rw [Nat.testBit_xor, Nat.testBit_land, hM, Bool.and_false, Bool.xor_false]

/-- Witness for C9 at a concrete input: bit 5 (below the field at
`pos = 11`) of the word is untouched by `set_bits`. -/
theorem set_bits_only_field_witness :
    5 < 64 ∧ (5 < 11 ∨ 11 + 11 ≤ 5) ∧
      (set_bits 64 0x123456789ABCDEF0 11 11 1234).testBit 5 =
        (0x123456789ABCDEF0 : Nat).testBit 5 :=
  ⟨by norm_num, Or.inl (by norm_num),
    set_bits_only_field 64 0x123456789ABCDEF0 11 11 1234 5 (by norm_num)
      (Or.inl (by norm_num))⟩

end Pawns

namespace Cluster

/-- Bound kind of a stored evaluation, `Bound ∈ {exact, lower, upper}`
(spec §3; `tt.h` is not under `src/`). -/
inductive Bound
  | exact
  | lower
  | upper
deriving DecidableEq, Inhabited

/-- Position key (the `Key` consumed by `cluster.h`), a 64-bit hash
modelled as `Nat`. -/
abbrev Key := Nat

/-- Modelled from the spec: the `TTEntry` payload of `tt.h`, which is not
under `src/`. Spec §3: payload = {value estimate, bound kind, search
depth, best move found, static evaluation, generation marker}. Only
`depth` is inspected by the code embedded here (`TTSendBuffer::Compare`
calls `depth()`). -/
structure TTEntry where
  value : Int
  bound : Bound
  depth : Int
  move : Int
  eval : Int
  generation : Int
deriving DecidableEq, Inhabited

/-- `Cluster::KeyedTTEntry = std::pair<Key, TTEntry>`
(src/unnamed/part_000, line 43). -/
abbrev KeyedTTEntry := Key × TTEntry

/-- `Cluster::TTSendBufferSize = 32` (src/unnamed/part_000, line 45). -/
def TTSendBufferSize : Nat := 32

namespace TTSendBuffer

/-- `TTSendBuffer::Compare::operator()` (src/unnamed/part_000,
lines 48-52): `lhs.second.depth() > rhs.second.depth()`. -/
def cmp (lhs rhs : KeyedTTEntry) : Bool :=
  decide (lhs.2.depth > rhs.2.depth)

/-- The comparator's complement order, `a.depth ≤ b.depth`. A sequence
nondecreasing in this order is a valid `Compare`-heap: every parent
precedes its children positionally, so no parent's depth exceeds a
child's, and the front is an extremal (minimum-depth) element, exactly
what the C++ heap contract guarantees for `front()`. -/
def depthLE (a b : KeyedTTEntry) : Prop := a.2.depth ≤ b.2.depth

instance : DecidableRel depthLE := fun a b =>
  inferInstanceAs (Decidable (a.2.depth ≤ b.2.depth))

instance : IsTotal KeyedTTEntry depthLE :=
  ⟨fun a b => Int.le_total a.2.depth b.2.depth⟩

instance : IsTrans KeyedTTEntry depthLE :=
  ⟨fun _ _ _ hab hbc => le_trans hab hbc⟩

/-- Canonical `Compare`-heap order on a list of entries: nondecreasing
depth. -/
def sortD (l : List KeyedTTEntry) : List KeyedTTEntry :=
  List.insertionSort depthLE l

/-- Modelled from the C++ standard library contract of `std::pop_heap`
(the call on src/unnamed/part_000, line 60): swap the front (the heap's
extremal element — here the minimum depth) into the last position and
re-establish a `Compare`-heap on the remaining prefix. The heap order is
realised canonically as nondecreasing depth; the theorems below concern
only the front element, the length and the multiset of entries, all of
which the contract determines. -/
def popHeap : List KeyedTTEntry → List KeyedTTEntry
  | [] => []
  | x :: rest => sortD rest ++ [x]

/-- `this->back() = value` (src/unnamed/part_000, line 61). -/
def setBack (l : List KeyedTTEntry) (value : KeyedTTEntry) :
    List KeyedTTEntry :=
  l.dropLast ++ [value]

/-- Modelled from the C++ standard library contract of `std::push_heap`
(the call on src/unnamed/part_000, line 62): re-establish a
`Compare`-heap now including the last element, realised canonically as
the nondecreasing-depth order. -/
def pushHeap (l : List KeyedTTEntry) : List KeyedTTEntry := sortD l

/-- `TTSendBuffer<N>::replace` (src/unnamed/part_000, lines 56-66). The
buffer is a `std::array<KeyedTTEntry, N>` embedded as a list of fixed
length `N`; `this->front()` is `headI`. Returns the C++ return value
paired with the new buffer contents. -/
def replace (buf : List KeyedTTEntry) (value : KeyedTTEntry) :
    Bool × List KeyedTTEntry :=
  if cmp value buf.headI then
    (true, pushHeap (setBack (popHeap buf) value))
  else
    (false, buf)

/-- Folding a sequence of offers through `replace`, keeping the buffer
state. -/
def offerAll (buf : List KeyedTTEntry) (vs : List KeyedTTEntry) :
    List KeyedTTEntry :=
  vs.foldl (fun b v => (replace b v).2) buf

/-- Multiplicity of the entry `e` in a list of entries. -/
def countE (e : KeyedTTEntry) (l : List KeyedTTEntry) : Nat :=
  (l.filter (fun x => x = e)).length

theorem countE_nil (e : KeyedTTEntry) : countE e [] = 0 := rfl

theorem countE_cons (e x : KeyedTTEntry) (l : List KeyedTTEntry) :
    countE e (x :: l) = countE e l + (if x = e then 1 else 0) := by
  by_cases h : x = e <;> simp [countE, List.filter_cons, h]

theorem countE_append (e : KeyedTTEntry) (l₁ l₂ : List KeyedTTEntry) :
    countE e (l₁ ++ l₂) = countE e l₁ + countE e l₂ := by
  simp [countE, List.filter_append]

theorem countE_perm (e : KeyedTTEntry) {l₁ l₂ : List KeyedTTEntry}
    (h : l₁.Perm l₂) : countE e l₁ = countE e l₂ :=
  (h.filter _).length_eq

theorem countE_le_cons (e x : KeyedTTEntry) (l : List KeyedTTEntry) :
    countE e l ≤ countE e (x :: l) := by
  rw [countE_cons]; omega

/-- `buf` is a maximal-depth selection from the multiset `seen`: it is a
sub-multiset of `seen` (counting multiplicity), and any copy of an entry
of `seen` not retained in `buf` has depth at most that of every member of
`buf`. -/
def IsTopSelection (seen buf : List KeyedTTEntry) : Prop :=
  (∀ x : KeyedTTEntry, countE x buf ≤ countE x seen) ∧
  (∀ x : KeyedTTEntry, countE x buf < countE x seen →
    ∀ y ∈ buf, x.2.depth ≤ y.2.depth)

theorem isTopSelection_refl (l : List KeyedTTEntry) : IsTopSelection l l :=
  ⟨fun _ => le_rfl, fun x hx => absurd hx (lt_irrefl _)⟩

theorem replace_cons_insert (x : KeyedTTEntry) (rest : List KeyedTTEntry)
    (v : KeyedTTEntry) (h : cmp v x = true) :
    replace (x :: rest) v = (true, sortD (sortD rest ++ [v])) := by
  simp only [replace, List.headI, h, if_true, popHeap, setBack, pushHeap,
    List.dropLast_concat]

theorem replace_cons_reject (x : KeyedTTEntry) (rest : List KeyedTTEntry)
    (v : KeyedTTEntry) (h : cmp v x = false) :
    replace (x :: rest) v = (false, x :: rest) := by
  simp only [replace, List.headI, h, Bool.false_eq_true, if_false]

theorem replace_insert_perm (x : KeyedTTEntry) (rest : List KeyedTTEntry)
    (v : KeyedTTEntry) (h : cmp v x = true) :
    ((replace (x :: rest) v).2).Perm (v :: rest) := by
  rw [replace_cons_insert x rest v h]
  exact (List.perm_insertionSort _ _).trans
    (((List.perm_insertionSort _ _).append_right _).trans
      (List.perm_append_singleton _ _))


theorem replace_step (seen : List KeyedTTEntry) (x : KeyedTTEntry)
    (rest : List KeyedTTEntry) (v : KeyedTTEntry)
    (hs : List.Sorted depthLE (x :: rest))
    (ht : IsTopSelection seen (x :: rest)) :
    List.Sorted depthLE (replace (x :: rest) v).2 ∧
    ((replace (x :: rest) v).2).length = (x :: rest).length ∧
    IsTopSelection (seen ++ [v]) (replace (x :: rest) v).2 := by
  cases hcmp : cmp v x with
  | false =>
    rw [replace_cons_reject x rest v hcmp]
    have hvx : v.2.depth ≤ x.2.depth := by
      unfold cmp at hcmp
      simpa using of_decide_eq_false hcmp
    refine ⟨hs, rfl, ?_, ?_⟩
    · intro e
      calc countE e (x :: rest) ≤ countE e seen := ht.1 e
        _ ≤ countE e (seen ++ [v]) := by rw [countE_append]; omega
    · intro e he y hy
      by_cases hev : e = v
      · subst hev
        rcases List.mem_cons.mp hy with rfl | hy'
        · exact hvx
        · have hxy : x.2.depth ≤ y.2.depth := List.rel_of_sorted_cons hs y hy'
          exact le_trans hvx hxy
      · have hc : countE e (seen ++ [v]) = countE e seen := by
          rw [countE_append, countE_cons, countE_nil]
          simp [Ne.symm hev]
        rw [hc] at he
        exact ht.2 e he y hy
  | true =>
    have hperm := replace_insert_perm x rest v hcmp
    have hvx : x.2.depth < v.2.depth := by
      unfold cmp at hcmp
      simpa using of_decide_eq_true hcmp
    have hsorted : List.Sorted depthLE (replace (x :: rest) v).2 := by
      rw [replace_cons_insert x rest v hcmp]
      exact List.sorted_insertionSort depthLE _
    have hlen : ((replace (x :: rest) v).2).length = (x :: rest).length := by
      rw [hperm.length_eq]; simp
    have hcount : ∀ e : KeyedTTEntry,
        countE e (replace (x :: rest) v).2
          = countE e rest + (if v = e then 1 else 0) := by
      intro e
      rw [countE_perm e hperm, countE_cons]
    refine ⟨hsorted, hlen, ?_, ?_⟩
    · intro e
      rw [hcount e, countE_append, countE_cons, countE_nil]
      have h1 : countE e rest ≤ countE e (x :: rest) := countE_le_cons e x rest
      have h2 := ht.1 e
      split_ifs <;> omega
    · intro e he y hy
      rw [hcount e, countE_append, countE_cons, countE_nil] at he
      have hrest : countE e rest < countE e seen := by
        split_ifs at he <;> omega
      have hymem : y ∈ v :: rest := (hperm.mem_iff).mp hy
      by_cases hex : e = x
      · subst hex
        rcases List.mem_cons.mp hymem with rfl | hy'
        · exact le_of_lt hvx
        · exact List.rel_of_sorted_cons hs y hy'
      · have hcnt : countE e (x :: rest) = countE e rest := by
          rw [countE_cons]; simp [Ne.symm hex]
        have hout := ht.2 e (by rw [hcnt]; exact hrest)
        rcases List.mem_cons.mp hymem with rfl | hy'
        · have hx : e.2.depth ≤ x.2.depth := hout x (List.mem_cons_self x rest)
          exact le_of_lt (lt_of_le_of_lt hx hvx)
        · exact hout y (List.mem_cons_of_mem x hy')

theorem offerAll_invariant (vs : List KeyedTTEntry) :
    ∀ (seen buf : List KeyedTTEntry), buf ≠ [] →
      List.Sorted depthLE buf → IsTopSelection seen buf →
      (offerAll buf vs) ≠ [] ∧
      List.Sorted depthLE (offerAll buf vs) ∧
      (offerAll buf vs).length = buf.length ∧
      IsTopSelection (seen ++ vs) (offerAll buf vs) := by
  induction vs with
  | nil =>
    intro seen buf hne hs ht
    exact ⟨hne, hs, rfl, by rw [List.append_nil]; exact ht⟩
  | cons v vs ih =>
    intro seen buf hne hs ht
    obtain ⟨x, rest, rfl⟩ := List.exists_cons_of_ne_nil hne
    have step := replace_step seen x rest v hs ht
    have hne' : (replace (x :: rest) v).2 ≠ [] := by
      intro h
      have hl := step.2.1
      rw [h] at hl
      simp at hl
    have hoa : offerAll (x :: rest) (v :: vs)
        = offerAll ((replace (x :: rest) v).2) vs := rfl
    rw [hoa]
    have hrec := ih (seen ++ [v]) _ hne' step.1 step.2.2
    refine ⟨hrec.1, hrec.2.1, ?_, ?_⟩
    · rw [hrec.2.2.1, step.2.1]
    · have happ : (seen ++ [v]) ++ vs = seen ++ (v :: vs) := by
        rw [List.append_assoc]; rfl
      rw [← happ]
      exact hrec.2.2.2

/-- C1 (amended): a `TTSendBuffer` is a fixed `std::array` holding exactly
`N = 32` entries at all times — there is no below-capacity state, and a
fresh buffer already holds 32 (default-constructed) entries. Starting
from any heap-ordered initial contents of the 32 slots and offering any
sequence of entries: the buffer still holds exactly 32 entries; it is
heap-ordered; it holds the 32 greatest-depth entries among the initial
contents together with all entries offered (any non-retained copy has
depth at most that of every member); the front is a minimum-depth member;
a further offer is admitted (`replace` returns `true`) if and only if its
depth strictly exceeds the front's (minimum) depth, in which case exactly
the front — a minimum-depth member — is evicted and the offered entry
inserted. -/
theorem gossip_buffer_top_n (l0 : List KeyedTTEntry)
    (h0 : List.Sorted depthLE l0) (hlen : l0.length = TTSendBufferSize)
    (vs : List KeyedTTEntry) :
    (offerAll l0 vs).length = TTSendBufferSize ∧
    List.Sorted depthLE (offerAll l0 vs) ∧
    IsTopSelection (l0 ++ vs) (offerAll l0 vs) ∧
    (∀ y ∈ offerAll l0 vs,
      ((offerAll l0 vs).headI).2.depth ≤ y.2.depth) ∧
    (∀ v : KeyedTTEntry,
      (replace (offerAll l0 vs) v).1 = true ↔
        ((offerAll l0 vs).headI).2.depth < v.2.depth) ∧
    (∀ v : KeyedTTEntry, (replace (offerAll l0 vs) v).1 = true →
      ∀ e : KeyedTTEntry,
        countE e (replace (offerAll l0 vs) v).2
            + (if (offerAll l0 vs).headI = e then 1 else 0)
          = countE e (offerAll l0 vs) + (if v = e then 1 else 0)) := by
  have hne : l0 ≠ [] := by
    intro h; rw [h] at hlen; simp [TTSendBufferSize] at hlen
  have inv := offerAll_invariant vs l0 l0 hne h0 (isTopSelection_refl l0)
  obtain ⟨x, rest, hbuf⟩ := List.exists_cons_of_ne_nil inv.1
  have hsorted := inv.2.1
  have hfst : ∀ v : KeyedTTEntry,
      (replace (offerAll l0 vs) v).1 = cmp v ((offerAll l0 vs).headI) := by
    intro v
    by_cases hc : cmp v ((offerAll l0 vs).headI) <;> simp [replace, hc]
  have hmin : ∀ y ∈ offerAll l0 vs,
      ((offerAll l0 vs).headI).2.depth ≤ y.2.depth := by
    rw [hbuf]
    intro y hy
    rcases List.mem_cons.mp hy with rfl | hy'
    · simp
    · have := List.rel_of_sorted_cons (hbuf ▸ hsorted) y hy'
      simpa using this
  refine ⟨inv.2.2.1.trans hlen, hsorted, inv.2.2.2, hmin, ?_, ?_⟩
  · intro v
    rw [hfst v, cmp, decide_eq_true_iff]
  · intro v hv e
    rw [hfst v] at hv
    rw [hbuf] at hv ⊢
    have hperm := replace_insert_perm x rest v (by simpa using hv)
    rw [countE_perm e hperm, countE_cons, countE_cons]
    simp only [List.headI]
    split_ifs <;> omega

/-- A depth-0 keyed entry, standing in for the default-constructed
contents of a fresh `TTSendBuffer` slot. -/
def sampleEntry : KeyedTTEntry :=
  (0, { value := 0, bound := Bound.exact, depth := 0, move := 0, eval := 0,
        generation := 0 })

/-- A depth-5 keyed entry used as a concrete offer. -/
def sampleOffer : KeyedTTEntry :=
  (1, { value := 0, bound := Bound.exact, depth := 5, move := 0, eval := 0,
        generation := 0 })

/-- C1 counterexample: the claim asserts that "while below capacity every
offer is admitted", but a `TTSendBuffer` has no below-capacity state: it
is a `std::array` that already holds `N = 32` (default-constructed)
entries before any entry has been offered, and the very first offer —
made when zero entries have been offered, hence "below capacity" in the
claim's accounting — is rejected (`replace` returns `false`) because its
depth does not strictly exceed the resident default entries' depth. -/
theorem gossip_buffer_below_capacity_counterexample :
    (List.replicate TTSendBufferSize sampleEntry).length = TTSendBufferSize ∧
    (replace (List.replicate TTSendBufferSize sampleEntry) sampleEntry).1
      = false :=
  ⟨List.length_replicate _ _, by decide⟩

/-- Witness for C1 (amended) at a concrete input: 32 depth-0 slots and a
single depth-5 offer; both hypotheses hold and the theorem yields, in
particular, that the buffer still has 32 entries afterwards. -/
theorem gossip_buffer_top_n_witness :
    List.Sorted depthLE (List.replicate TTSendBufferSize sampleEntry) ∧
    (List.replicate TTSendBufferSize sampleEntry).length = TTSendBufferSize ∧
    (offerAll (List.replicate TTSendBufferSize sampleEntry)
        [sampleOffer]).length = TTSendBufferSize :=
  ⟨List.pairwise_replicate.mpr (Or.inr le_rfl),
    List.length_replicate _ _,
    (gossip_buffer_top_n (List.replicate TTSendBufferSize sampleEntry)
      (List.pairwise_replicate.mpr (Or.inr le_rfl))
      (List.length_replicate _ _) [sampleOffer]).1⟩

/-- C10: `TTSendBuffer::replace` is atomic on rejection — whenever it
returns `false` the buffer's contents are completely unchanged — and,
being a fixed `std::array` of `N = 32` slots, the buffer holds exactly 32
entries before (the hypothesis) and after every call. -/
theorem replace_reject_frame (buf : List KeyedTTEntry) (v : KeyedTTEntry)
    (hlen : buf.length = TTSendBufferSize) :
    ((replace buf v).1 = false → (replace buf v).2 = buf) ∧
    ((replace buf v).2).length = TTSendBufferSize := by
  have hne : buf ≠ [] := by
    intro h; rw [h] at hlen; simp [TTSendBufferSize] at hlen
  obtain ⟨x, rest, rfl⟩ := List.exists_cons_of_ne_nil hne
  cases hcmp : cmp v x with
  | false =>
    rw [replace_cons_reject x rest v hcmp]
    exact ⟨fun _ => rfl, hlen⟩
  | true =>
    have hperm := replace_insert_perm x rest v hcmp
    constructor
    · intro h
      rw [replace_cons_insert x rest v hcmp] at h
      simp at h
    · rw [hperm.length_eq]
      simpa using hlen

/-- Witness for C10 at a concrete input: a full buffer of 32 depth-0
entries and a rejected depth-0 offer. -/
theorem replace_reject_frame_witness :
    (List.replicate TTSendBufferSize sampleEntry).length = TTSendBufferSize ∧
    (((replace (List.replicate TTSendBufferSize sampleEntry) sampleEntry).1
          = false →
        (replace (List.replicate TTSendBufferSize sampleEntry)
            sampleEntry).2
          = List.replicate TTSendBufferSize sampleEntry) ∧
      ((replace (List.replicate TTSendBufferSize sampleEntry)
          sampleEntry).2).length = TTSendBufferSize) :=
  ⟨List.length_replicate _ _,
    replace_reject_frame (List.replicate TTSendBufferSize sampleEntry)
      sampleEntry (List.length_replicate _ _)⟩

end TTSendBuffer

/-- `Cluster::MoveInfo` (src/unnamed/part_000, lines 35-40): the `int`
fields move, depth, score and reporting rank. -/
structure MoveInfo where
  move : Int
  depth : Int
  score : Int
  rank : Int
deriving DecidableEq, Inhabited

/-- The spec's selection priority (§4.5): candidate `a` beats `b` when it
has strictly greater depth; on equal depth, strictly greater score; on
equal depth and score, strictly lower rank. -/
def BetterMI (a b : MoveInfo) : Prop :=
  b.depth < a.depth ∨
    (a.depth = b.depth ∧
      (b.score < a.score ∨ (a.score = b.score ∧ a.rank < b.rank)))

instance : ∀ a b : MoveInfo, Decidable (BetterMI a b) := fun a b => by
  unfold BetterMI
  infer_instance

theorem betterMI_irrefl (a : MoveInfo) : ¬ BetterMI a a := by
  unfold BetterMI
  omega

theorem betterMI_trans {a b c : MoveInfo} (h1 : BetterMI a b)
    (h2 : BetterMI b c) : BetterMI a c := by
  unfold BetterMI at h1 h2 ⊢
  omega

theorem betterMI_tie {a b : MoveInfo} (h1 : ¬ BetterMI a b)
    (h2 : ¬ BetterMI b a) :
    a.depth = b.depth ∧ a.score = b.score ∧ a.rank = b.rank := by
  unfold BetterMI at h1 h2
  omega

/-- Modelled from the spec: the distributed `Cluster::pick_moves`
(declared on src/unnamed/part_000, line 76; its implementation lives in
cluster.cpp, which is not under `src/`). Spec §4.5: root collects one
MoveInfo per rank and selects the candidate with the greatest depth, then
the greatest score among depth ties, then the lowest rank — never
order-of-arrival dependent. The aggregation is over the collected
candidate list. -/
def pick_moves : List MoveInfo → Option MoveInfo
  | [] => none
  | m :: rest =>
    match pick_moves rest with
    | none => some m
    | some b => if BetterMI m b then some m else some b

theorem pick_moves_nil_iff (l : List MoveInfo) :
    pick_moves l = none ↔ l = [] := by
  cases l with
  | nil => simp [pick_moves]
  | cons a rest =>
    cases hpr : pick_moves rest with
    | none => simp [pick_moves, hpr]
    | some b =>
      by_cases hab : BetterMI a b <;> simp [pick_moves, hpr, hab]

theorem pick_moves_mem_best :
    ∀ (l : List MoveInfo) (m : MoveInfo), pick_moves l = some m →
      m ∈ l ∧ ∀ x ∈ l, ¬ BetterMI x m := by
  intro l
  induction l with
  | nil => intro m h; simp [pick_moves] at h
  | cons a rest ih =>
    intro m h
    rw [pick_moves] at h
    cases hr : pick_moves rest with
    | none =>
      rw [hr] at h
      have hm : m = a := by simpa using h.symm
      subst hm
      have hrest : rest = [] := (pick_moves_nil_iff rest).mp hr
      subst hrest
      refine ⟨List.mem_cons_self _ _, ?_⟩
      intro x hx
      rcases List.mem_cons.mp hx with rfl | hx'
      · exact betterMI_irrefl x
      · simp at hx'
    | some b =>
      rw [hr] at h
      have h' : (if BetterMI a b then some a else some b) = some m := h
      obtain ⟨hbmem, hbbest⟩ := ih b hr
      by_cases hab : BetterMI a b
      · rw [if_pos hab] at h'
        have hm : m = a := by simpa using h'.symm
        subst hm
        refine ⟨List.mem_cons_self _ _, ?_⟩
        intro x hx
        rcases List.mem_cons.mp hx with rfl | hx'
        · exact betterMI_irrefl x
        · intro hxa
          exact hbbest x hx' (betterMI_trans hxa hab)
      · rw [if_neg hab] at h'
        have hm : m = b := by simpa using h'.symm
        subst hm
        refine ⟨List.mem_cons_of_mem a hbmem, ?_⟩
        intro x hx
        rcases List.mem_cons.mp hx with rfl | hx'
        · exact hab
        · exact hbbest x hx'

/-- C2: `pick_moves` is deterministic. Given the same multiset of
MoveInfo candidates across ranks — each rank reporting exactly once, so
the collected ranks are pairwise distinct — any two aggregation runs
(any two orderings of arrival, i.e. any permutation of the candidate
list) select the identical move: greatest depth wins, then greatest
score, then lowest rank, never order-of-arrival. -/
theorem pick_moves_deterministic (l1 l2 : List MoveInfo)
    (hperm : l1.Perm l2) (hranks : (l1.map MoveInfo.rank).Nodup) :
    pick_moves l1 = pick_moves l2 := by
  cases h1 : pick_moves l1 with
  | none =>
    have h1' : l1 = [] := (pick_moves_nil_iff l1).mp h1
    subst h1'
    have h2' : l2 = [] := hperm.symm.eq_nil
    rw [h2']
    rfl
  | some m1 =>
    cases h2 : pick_moves l2 with
    | none =>
      have h2' : l2 = [] := (pick_moves_nil_iff l2).mp h2
      subst h2'
      have h1' : l1 = [] := hperm.eq_nil
      rw [h1'] at h1
      simp [pick_moves] at h1
    | some m2 =>
      obtain ⟨hm1, hb1⟩ := pick_moves_mem_best l1 m1 h1
      obtain ⟨hm2, hb2⟩ := pick_moves_mem_best l2 m2 h2
      have hm2' : m2 ∈ l1 := hperm.mem_iff.mpr hm2
      have hm1' : m1 ∈ l2 := hperm.mem_iff.mp hm1
      have h12 : ¬ BetterMI m1 m2 := hb2 m1 hm1'
      have h21 : ¬ BetterMI m2 m1 := hb1 m2 hm2'
      have heq := betterMI_tie h12 h21
      have : m1 = m2 :=
        List.inj_on_of_nodup_map hranks hm1 hm2' heq.2.2
      rw [this]

/-- The spec's §8 tie example: two ranks both report depth 20, score 35. -/
def sampleMI1 : MoveInfo := { move := 1, depth := 20, score := 35, rank := 0 }

/-- The second tied candidate, reported by rank 1. -/
def sampleMI2 : MoveInfo := { move := 2, depth := 20, score := 35, rank := 1 }

/-- Witness for C2 at a concrete input: the two tied candidates of §8
presented in both arrival orders select the same move. -/
theorem pick_moves_deterministic_witness :
    ([sampleMI1, sampleMI2].map MoveInfo.rank).Nodup ∧
    pick_moves [sampleMI1, sampleMI2] = pick_moves [sampleMI2, sampleMI1] :=
  ⟨by decide,
    pick_moves_deterministic [sampleMI1, sampleMI2] [sampleMI2, sampleMI1]
      (List.Perm.swap sampleMI2 sampleMI1 []) (by decide)⟩

/-- The single-process state visible to `Cluster::save`: the targeted
local table slot, plus a gossip-buffer component that exists only so the
theorem can state that the single-process path never touches it (the
single-process build does not even compile the `TTSendBuffer` type). -/
structure ProcState where
  slot : TTEntry
  gossip : List KeyedTTEntry
deriving DecidableEq, Inhabited

/-- The argument tuple `(k, v, b, d, m, ev)` of `Cluster::save` after the
thread and slot handles (src/unnamed/part_000, line 90). -/
structure SaveArgs where
  k : Key
  v : Int
  b : Bound
  d : Int
  m : Int
  ev : Int
deriving DecidableEq, Inhabited

/-- `Cluster::save` in the single-process build (src/unnamed/part_000,
line 90): `{ tte->save(k, v, b, d, m, ev); }`. `TTEntry::save` lives in
`tt.h`, which is not under `src/`, so the collaborator's write is passed
in as the parameter `ttSave`; the thread handle is unused, exactly as in
the source (`save(Thread*, TTEntry* tte, ...)` with an unnamed thread
parameter). -/
def save (ttSave : SaveArgs → TTEntry → TTEntry) (thread : Unit)
    (st : ProcState) (a : SaveArgs) : ProcState :=
  { st with slot := ttSave a st.slot }

/-- The spec's description of the single-process behaviour (§4.3):
"writes directly into the local storage slot; no other effect" — the
direct local write `tte->save(k, v, b, d, m, ev)`, touching nothing
else. -/
def directLocalWrite (ttSave : SaveArgs → TTEntry → TTEntry)
    (st : ProcState) (a : SaveArgs) : ProcState :=
  { st with slot := ttSave a st.slot }

/-- C3: in the single-process build, for every collaborator write
`ttSave` (the behaviour of `tte->save`), thread handle, state and
argument tuple, `Cluster::save` is observably equivalent to the direct
local write with the same arguments: the slot is updated by exactly
`tte->save(k, v, b, d, m, ev)`, the gossip buffer is untouched, and
nothing else of the state changes. -/
theorem save_eq_direct_write (ttSave : SaveArgs → TTEntry → TTEntry)
    (thread : Unit) (st : ProcState) (a : SaveArgs) :
    save ttSave thread st a = directLocalWrite ttSave st a ∧
    (save ttSave thread st a).slot = ttSave a st.slot ∧
    (save ttSave thread st a).gossip = st.gossip :=
  ⟨rfl, rfl, rfl⟩

/-- `Cluster::size` in the single-process build (src/unnamed/part_000,
line 87): `constexpr int size() { return 1; }` — a constant, independent
of the process state. -/
def size (_ : ProcState) : Int := 1

/-- `Cluster::rank` in the single-process build (src/unnamed/part_000,
line 88): `constexpr int rank() { return 0; }`. -/
def rank (_ : ProcState) : Int := 0

/-- `Cluster::is_root` in the single-process build (src/unnamed/part_000,
line 89): `constexpr bool is_root() { return true; }`. -/
def is_root (_ : ProcState) : Bool := true

/-- C4: in single-process mode `size() = 1`, `rank() = 0` and
`is_root() = true` hold unconditionally — all three are `constexpr`
constants independent of the process state, so they hold for the entire
process lifetime regardless of any operations performed; moreover
`is_root` agrees with the `rank() == 0` definition used by the
distributed branch (line 74). -/
theorem topology_constants (st : ProcState) :
    size st = 1 ∧ rank st = 0 ∧ is_root st = true ∧
      is_root st = decide (rank st = 0) :=
  ⟨rfl, rfl, rfl, rfl⟩

/-- A C++ input stream as `Cluster::getline` observes it: the lines not
yet read, plus the stream's failure flag (`failbit` / `badbit`; a read
error behaves exactly like end-of-stream for extraction). -/
structure IStream where
  data : List String
  fail : Bool
deriving DecidableEq, Inhabited

/-- Modelled from the C++ standard library contract of `std::getline` on
a line-buffered stream: if the failure flag is already set, extraction
fails and nothing is read; at end-of-stream, extraction fails and sets
the failure flag; otherwise the next line is consumed and returned.
Returns the stream after the read and the string read. -/
def stdGetline (s : IStream) : IStream × String :=
  if s.fail then (s, "")
  else
    match s.data with
    | [] => ({ s with fail := true }, "")
    | line :: rest => ({ s with data := rest }, line)

/-- `Cluster::getline` in the single-process build (src/unnamed/part_000,
line 86): `return static_cast<bool>(std::getline(input, str));` — the
stream converted to `bool`, which is `!fail()`. Returns the pair
(stream after the read, line read) and the boolean result. -/
def getline (s : IStream) : (IStream × String) × Bool :=
  let r := stdGetline s
  (r, !r.1.fail)

/-- Modelled from the spec: `Cluster::getline` in the distributed build
(declared on src/unnamed/part_000, line 71; implemented in cluster.cpp,
which is not under `src/`). Spec §4.7: only the root rank reads the
stream; the boolean outcome and the line are then broadcast, so every
rank observes the identical result. Returns the stream after root's read
and the per-rank observations for `n` ranks. -/
def distributedGetline (n : Nat) (s : IStream) :
    IStream × List (String × Bool) :=
  let r := stdGetline s
  (r.1, List.replicate n (r.2, !r.1.fail))

/-- C5: `Cluster::getline` returns `false` exactly when the stream is at
end-of-stream or a read has failed (a read failure is treated identically
to end-of-stream, through the stream's failure flag), and returns `true`
otherwise with the output string holding the line that was read (the
head of the remaining input, which is consumed); in distributed mode the
boolean result and the line content are identical on every rank. -/
theorem getline_spec (s : IStream) :
    ((getline s).2 = false ↔ (s.fail = true ∨ s.data = [])) ∧
    ((getline s).2 = true →
      s.fail = false ∧ (getline s).1.2 = s.data.headI ∧
        (getline s).1.1.data = s.data.tail) ∧
    (∀ n : Nat, ∀ x ∈ (distributedGetline n s).2,
      ∀ y ∈ (distributedGetline n s).2, x = y) := by
  obtain ⟨data, fail⟩ := s
  refine ⟨?_, ?_, ?_⟩
  · cases fail <;> cases data <;> simp [getline, stdGetline]
  · cases fail <;> cases data <;> simp [getline, stdGetline]
  · intro n x hx y hy
    simp only [distributedGetline] at hx hy
    have hx' := List.eq_of_mem_replicate hx
    have hy' := List.eq_of_mem_replicate hy
    rw [hx', hy']

/-- Witness for C5 at a concrete input: a healthy stream holding the
single line "go depth 10" reads it successfully. -/
theorem getline_spec_witness :
    (getline ⟨["go depth 10"], false⟩).2 = true ∧
      (getline ⟨["go depth 10"], false⟩).1.2
        = (["go depth 10"] : List String).headI :=
  ⟨rfl, ((getline_spec ⟨["go depth 10"], false⟩).2.1 rfl).2.1⟩

/-- Modelled from the spec: the Signal Channel's per-episode state (§4.4)
— whether any rank has requested a stop. It exists only so the claim
about `signals_poll` can be stated; the single-process stub below touches
none of it. -/
structure SignalsState where
  stopRequested : Bool
deriving DecidableEq, Inhabited

/-- `Cluster::signals_poll` in the single-process build
(src/unnamed/part_000, line 94): `inline void signals_poll() { }` — a
no-op returning `void` (`Unit`), matching its declaration in the
distributed branch, line 79: `void signals_poll();`. -/
def signals_poll (s : SignalsState) : SignalsState × Unit := (s, ())

/-- C6 counterexample: `signals_poll` is declared `void` in both builds
(src/unnamed/part_000, lines 79 and 94), not `bool` as the claim's
"declared contract signals_poll() : bool" states; its return value is the
same whether or not a stop has been requested, so it returns no stop
indication whatsoever to the caller: polling a state in which a stop has
been requested returns exactly what polling a quiescent state returns,
and leaves both states untouched. -/
theorem signals_poll_counterexample :
    (signals_poll { stopRequested := true }).2
        = (signals_poll { stopRequested := false }).2 ∧
      (signals_poll { stopRequested := true }).1
        = { stopRequested := true } ∧
      (signals_poll { stopRequested := false }).1
        = { stopRequested := false } :=
  ⟨rfl, rfl, rfl⟩

/-- C6 (amended): `signals_poll` is declared returning `void`, not
`bool`; it returns no value at all. In the single-process build it is a
no-op: it neither inspects nor changes any stop state and carries no stop
indication back to the caller, who must learn of stops by other means. -/
theorem signals_poll_void (s : SignalsState) : signals_poll s = (s, ()) :=
  rfl

/-- Modelled from the spec: the Gossip Buffer of §4.2 with its `offer` /
`drain` operations. No `drain` exists on the `TTSendBuffer` of
`cluster.h` (a fixed `std::array` that is never empty); the flush/drain
machinery belongs to cluster.cpp, which is not under `src/`. Modelled
directly from §3 / §4.2: a container of at most `capacity` entries. -/
structure GossipBuffer where
  capacity : Nat
  entries : List KeyedTTEntry
deriving DecidableEq, Inhabited

/-- A freshly constructed Gossip Buffer of capacity `n`: empty. -/
def GossipBuffer.fresh (n : Nat) : GossipBuffer := ⟨n, []⟩

/-- A minimum-depth entry of a nonempty entry list (the spec's eviction
candidate). -/
def minDepthEntry : List KeyedTTEntry → Option KeyedTTEntry
  | [] => none
  | x :: rest =>
    match minDepthEntry rest with
    | none => some x
    | some m => if m.2.depth ≤ x.2.depth then some m else some x

/-- Modelled from the spec (§4.2, §3): `offer` returns whether the entry
was admitted — always true below capacity; at capacity, true iff the
offered depth strictly exceeds the minimum-depth member's, in which case
that member is evicted. -/
def GossipBuffer.offer (b : GossipBuffer) (v : KeyedTTEntry) :
    GossipBuffer × Bool :=
  if b.entries.length < b.capacity then
    ({ b with entries := v :: b.entries }, true)
  else
    match minDepthEntry b.entries with
    | none => (b, false)
    | some m =>
      if m.2.depth < v.2.depth then
        ({ b with entries := v :: b.entries.erase m }, true)
      else (b, false)

/-- Modelled from the spec (§4.2): `drain()` removes and returns all
currently held entries, resetting the buffer to empty for handoff to the
transport layer. -/
def GossipBuffer.drain (b : GossipBuffer) :
    GossipBuffer × List KeyedTTEntry :=
  (GossipBuffer.fresh b.capacity, b.entries)

/-- Folding a sequence of offers through the Gossip Buffer. -/
def GossipBuffer.offerSeq (b : GossipBuffer) (vs : List KeyedTTEntry) :
    GossipBuffer :=
  vs.foldl (fun s v => (s.offer v).1) b

/-- C7: `drain()` removes and returns exactly the entries currently held
— in one step of the model, hence atomically — and resets the buffer to
empty: immediately after `drain` the buffer contains no entries and is
precisely a freshly constructed buffer of the same capacity, so every
subsequent sequence of offers behaves exactly as on a fresh buffer,
accumulating a fresh top-N set. -/
theorem drain_spec (b : GossipBuffer) :
    b.drain.2 = b.entries ∧
    b.drain.1.entries = [] ∧
    b.drain.1 = GossipBuffer.fresh b.capacity ∧
    (∀ vs : List KeyedTTEntry,
      GossipBuffer.offerSeq b.drain.1 vs
        = GossipBuffer.offerSeq (GossipBuffer.fresh b.capacity) vs) :=
  ⟨rfl, rfl, rfl, fun _ => rfl⟩

end Cluster
